import Mathlib

/-!
Shallow embedding of the optipic image-conversion core
(src/app/api/convert/route.ts and the shared utilities in src/unnamed/part_000),
together with theorems checking the natural-language specification against it.
-/

namespace OptiPic

/-- A JavaScript form/field value as it can reach the shared utility
`toBoolean` in src/unnamed/part_000 (`string | number | boolean | null |
undefined | File`); an extra `obj` constructor stands for any other object. -/
inductive FormValue
  | str (s : String)
  | num (n : ℚ)
  | bool (b : Bool)
  | file
  | null
  | undef
  | obj
deriving DecidableEq

/-- `toBoolean` from src/unnamed/part_000:
`value === "true" || value === "1" || value === 1 || value === true`.
JavaScript strict equality `===` across different runtime types is false,
which the constructor distinction models. -/
def toBoolean (value : FormValue) : Bool :=
  decide (value = .str "true") || decide (value = .str "1") ||
    decide (value = .num 1) || decide (value = .bool true)

/-- The `OutputFormat` string union from src/app/api/convert/route.ts. -/
inductive OutputFormat
  | auto
  | jpeg
  | jpg
  | png
  | webp
  | avif
  | tiff
  | gif
deriving DecidableEq

/-- The literal string of each `OutputFormat` member. -/
def formatToString : OutputFormat → String
  | .auto => "auto"
  | .jpeg => "jpeg"
  | .jpg => "jpg"
  | .png => "png"
  | .webp => "webp"
  | .avif => "avif"
  | .tiff => "tiff"
  | .gif => "gif"

/-- `normalizeFormat` from src/app/api/convert/route.ts (lines 50-63):
resolves `auto` through the source-extension table, maps `jpg` to `jpeg`,
and otherwise returns the requested format unchanged. -/
def normalizeFormat (format : OutputFormat) (fallback : String) : OutputFormat :=
  match format with
  | .auto =>
      if fallback = "jpeg" then .jpeg
      else if fallback = "jpg" then .jpeg
      else if fallback = "png" then .png
      else if fallback = "webp" then .webp
      else if fallback = "avif" then .avif
      else if fallback = "tiff" then .tiff
      else if fallback = "gif" then .gif
      else .jpeg
  | .jpg => .jpeg
  | f => f

/-- The `fit` union `"inside" | "cover" | "contain"`. -/
inductive Fit
  | inside
  | cover
  | contain
deriving DecidableEq

/-- The options record passed to `buildPipeline` in route.ts (lines 70-79).
Optional numeric fields are `Option ℤ` (`none` models `undefined`),
the optional background is `Option String`. -/
structure PipelineOptions where
  width : Option ℤ
  height : Option ℤ
  fit : Option Fit
  keepMetadata : Bool
  background : Option String

/-- One transform stage of the sharp pipeline, recorded declaratively:
the codec library itself is external to this subsystem. -/
inductive Stage
  | rotate
  | resize (width height : Option ℤ) (fit : Fit) (withoutEnlargement : Bool)
  | withMetadata
  | flatten (background : String)
deriving DecidableEq

/-- JavaScript truthiness of an optional finite number:
`undefined` and `0` are falsy, every other finite number is truthy. -/
def numTruthy : Option ℤ → Bool
  | none => false
  | some n => n != 0

/-- JavaScript truthiness of an optional string: `undefined` and `""` are falsy. -/
def strTruthy : Option String → Bool
  | none => false
  | some s => s != ""

/-- `buildPipeline` from route.ts (lines 70-96), as the ordered list of stages:
always `.rotate()` first; `.resize` when `options.width || options.height`
is truthy (with `width: options.width || undefined`, the fit defaulted by
`options.fit || "inside"` and `withoutEnlargement: true`); `.withMetadata()`
when `keepMetadata`; `.flatten({background})` when `options.background`
is truthy. -/
def buildPipeline (options : PipelineOptions) : List Stage :=
  let p := [Stage.rotate]
  let p := if numTruthy options.width || numTruthy options.height then
      p ++ [Stage.resize
              (if numTruthy options.width then options.width else none)
              (if numTruthy options.height then options.height else none)
              (options.fit.getD Fit.inside)
              true]
    else p
  let p := if options.keepMetadata then p ++ [Stage.withMetadata] else p
  let p := if strTruthy options.background then
      p ++ [Stage.flatten (options.background.getD "")]
    else p
  p

/-- Whether a stage is the resize stage. -/
def isResize : Stage → Bool
  | .resize _ _ _ _ => true
  | _ => false

/-- Whether a stage is the flatten stage. -/
def isFlatten : Stage → Bool
  | .flatten _ => true
  | _ => false

/-- The `hasAlphaFormats` list in `POST` (route.ts line 228). -/
def hasAlphaFormats : List OutputFormat := [.png, .webp, .avif, .gif]

/-- `shouldFlatten = flatten && !hasAlphaFormats.includes(outputFormat)`
(route.ts lines 229-230). -/
def shouldFlatten (flatten : Bool) (outputFormat : OutputFormat) : Bool :=
  flatten && !(hasAlphaFormats.contains outputFormat)

/-- `background = formData.get("background") || "#ffffff"` (route.ts line 219),
for a string-valued form field (`none` models an absent field). -/
def postBackground : Option String → String
  | none => "#ffffff"
  | some s => if s = "" then "#ffffff" else s

/-- The `encoderOptions` record built inside `POST` (route.ts lines 232-240):
`width: resizeWidth || undefined`, `height: resizeHeight || undefined`,
the form-level `fit`, and `background: shouldFlatten ? background : undefined`. -/
def postEncoderOptions (resizeWidth resizeHeight : ℤ) (fit : Fit)
    (keepMetadata flatten : Bool) (rawBackground : Option String)
    (outputFormat : OutputFormat) : PipelineOptions :=
  { width := if resizeWidth = 0 then none else some resizeWidth
    height := if resizeHeight = 0 then none else some resizeHeight
    fit := some fit
    keepMetadata := keepMetadata
    background :=
      if shouldFlatten flatten outputFormat then some (postBackground rawBackground)
      else none }

/-- The character class of the extension part of the filename regex in
route.ts line 259: any character other than a dot or a slash. -/
def extChar (c : Char) : Bool := c != '.' && c != '/'

/-- `file.name.replace(/\.[^\x2f.]+$/, "")` (route.ts line 259): removes a
final suffix consisting of a dot followed by one or more characters that are
neither a dot nor a slash; when no such suffix exists the name is unchanged.
Computed from the reversed character list: the candidate extension is the
maximal dot-free slash-free tail of the name, and the regex matches exactly
when that tail is nonempty and is immediately preceded by a dot. -/
def stripJsExt (name : String) : String :=
  let rt := name.data.reverse
  let ext := rt.takeWhile extChar
  let rest := rt.dropWhile extChar
  if ext.isEmpty then name
  else if rest.head? = some '.' then String.mk ((rest.drop 1).reverse)
  else name

/-- `extension = outputFormat === "jpeg" ? "jpg" : outputFormat`
(route.ts line 258). -/
def extensionFor (outputFormat : OutputFormat) : String :=
  if outputFormat = .jpeg then "jpg" else formatToString outputFormat

/-- The output filename computed in `POST` (route.ts lines 258-260). -/
def outputName (outputFormat : OutputFormat) (fileName : String) : String :=
  stripJsExt fileName ++ "." ++ extensionFor outputFormat

/-- The base name as the claim words it: the input filename with everything
from its final dot removed; a name with no dot keeps its whole name. -/
def claimBaseName (name : String) : String :=
  if name.data.contains '.' then
    String.mk ((name.data.reverse.dropWhile (fun c => c != '.')).drop 1).reverse
  else name

/-- The output filename as the claim words it. -/
def claimOutputName (outputFormat : OutputFormat) (fileName : String) : String :=
  claimBaseName fileName ++ "." ++ extensionFor outputFormat

/-- The mutable local state of `encodeToTargetSize` (route.ts lines 164-167).
`bestDiff = none` models the initial `Number.POSITIVE_INFINITY`,
`bestBuffer = none` the initial `null`. -/
structure SearchState where
  low : ℤ
  high : ℤ
  bestBuffer : Option (List ℕ)
  bestDiff : Option ℤ
deriving DecidableEq

/-- `Math.round(a / 2)` for an integer `a`: `floor(a / 2 + 1 / 2)`,
i.e. the floor division of `a + 1` by `2` (integer division on `ℤ` with a
positive divisor is floor division, matching `Math.round` on halves for
every integer, negative ones included). -/
def jsRound2 (a : ℤ) : ℤ := (a + 1) / 2

/-- The state at the top of `encodeToTargetSize`:
`low = 30`, `high = Math.max(baseQuality, 40)`, no best candidate yet. -/
def searchInit (baseQuality : ℤ) : SearchState :=
  ⟨30, max baseQuality 40, none, none⟩

/-- The quality probed from a state: `Math.round((low + high) / 2)`
(route.ts line 170). -/
def stepQuality (s : SearchState) : ℤ := jsRound2 (s.low + s.high)

/-- One iteration of the search loop (route.ts lines 169-187), parameterized
by the external single-pass encoder `enc : quality → encoded bytes`
(`encodeWithQuality(...).toBuffer()`, assumed to succeed): encode at the
midpoint quality, update the best candidate under strict `diff < bestDiff`,
then move one bound by a margin of 2 depending on whether the encoded
length overshot `targetBytes`. -/
def searchStep (enc : ℤ → List ℕ) (targetBytes : ℤ) (s : SearchState) : SearchState :=
  let quality := stepQuality s
  let encoded := enc quality
  let diff := |(encoded.length : ℤ) - targetBytes|
  let isBest : Bool :=
    match s.bestDiff with
    | none => true
    | some d => decide (diff < d)
  let bestBuffer := if isBest then some encoded else s.bestBuffer
  let bestDiff := if isBest then some diff else s.bestDiff
  if (encoded.length : ℤ) > targetBytes then
    ⟨s.low, quality - 2, bestBuffer, bestDiff⟩
  else
    ⟨quality + 2, s.high, bestBuffer, bestDiff⟩

/-- The search state after `n` iterations of the loop. -/
def searchStates (enc : ℤ → List ℕ) (targetBytes baseQuality : ℤ) : ℕ → SearchState
  | 0 => searchInit baseQuality
  | n + 1 => searchStep enc targetBytes (searchStates enc targetBytes baseQuality n)

/-- `encodeToTargetSize` (route.ts lines 149-193): run the loop for exactly
8 iterations and return `bestBuffer`, falling back to one more encode at
`baseQuality` if no candidate was recorded. -/
def encodeToTargetSize (enc : ℤ → List ℕ) (targetBytes baseQuality : ℤ) : List ℕ :=
  match (searchStates enc targetBytes baseQuality 8).bestBuffer with
  | some b => b
  | none => enc baseQuality

/-- The number of calls to the single-pass encoder made by
`encodeToTargetSize`: one per loop iteration, plus one more when the
defensive fallback re-encode is taken. -/
def encodeCallCount (enc : ℤ → List ℕ) (targetBytes baseQuality : ℤ) : ℕ :=
  8 + (match (searchStates enc targetBytes baseQuality 8).bestBuffer with
       | some _ => 0
       | none => 1)

/-- The quality probed in iteration `i` (0-based) of the search. -/
def probeQuality (enc : ℤ → List ℕ) (targetBytes baseQuality : ℤ) (i : ℕ) : ℤ :=
  stepQuality (searchStates enc targetBytes baseQuality i)

/-- The buffer encoded in iteration `i` of the search. -/
def probeBuffer (enc : ℤ → List ℕ) (targetBytes baseQuality : ℤ) (i : ℕ) : List ℕ :=
  enc (probeQuality enc targetBytes baseQuality i)

/-- The `diff = Math.abs(encoded.length - targetBytes)` of iteration `i`. -/
def probeDiff (enc : ℤ → List ℕ) (targetBytes baseQuality : ℤ) (i : ℕ) : ℤ :=
  |((probeBuffer enc targetBytes baseQuality i).length : ℤ) - targetBytes|

/-- Invariant on the search bounds: `low` never drops below its initial 30,
`high` never leaves `[27, max(baseQuality, 40)]`, and `low` overshoots `high`
by at most 4. -/
def searchInv (bq : ℤ) (s : SearchState) : Prop :=
  30 ≤ s.low ∧ 27 ≤ s.high ∧ s.high ≤ max bq 40 ∧ s.low ≤ s.high + 4

/-- The resize stage that `buildPipeline` inserts when a resize is requested. -/
def resizeStage (options : PipelineOptions) : Stage :=
  Stage.resize
    (if numTruthy options.width then options.width else none)
    (if numTruthy options.height then options.height else none)
    (options.fit.getD Fit.inside)
    true

/-- The batch conversion in `POST` (route.ts lines 196-314): the per-file
jobs are awaited together under one `try/catch`, so the first failing job
rejects the whole batch and the handler returns a single error response;
only when every job succeeds is the list of outputs produced. `convert`
stands for the per-file work (decode + pipeline + encode). -/
def convertBatch {F E O : Type} (convert : F → Except E O) : List F → Except E (List O)
  | [] => .ok []
  | f :: rest =>
    match convert f with
    | .error e => .error e
    | .ok o =>
      match convertBatch convert rest with
      | .error e => .error e
      | .ok os => .ok (o :: os)

/-! ### Lemmas about one search iteration -/

lemma searchStep_low_high_gt (enc : ℤ → List ℕ) (t : ℤ) (s : SearchState)
    (h : t < ((enc (stepQuality s)).length : ℤ)) :
    (searchStep enc t s).low = s.low ∧ (searchStep enc t s).high = stepQuality s - 2 := by
  refine ⟨?_, ?_⟩ <;> simp only [searchStep] <;> rw [if_pos h]

lemma searchStep_low_high_le (enc : ℤ → List ℕ) (t : ℤ) (s : SearchState)
    (h : ¬ t < ((enc (stepQuality s)).length : ℤ)) :
    (searchStep enc t s).low = stepQuality s + 2 ∧ (searchStep enc t s).high = s.high := by
  refine ⟨?_, ?_⟩ <;> simp only [searchStep] <;> rw [if_neg h]

lemma searchStep_best_none (enc : ℤ → List ℕ) (t : ℤ) (s : SearchState)
    (h : s.bestDiff = none) :
    (searchStep enc t s).bestBuffer = some (enc (stepQuality s)) ∧
    (searchStep enc t s).bestDiff = some (|((enc (stepQuality s)).length : ℤ) - t|) := by
  refine ⟨?_, ?_⟩ <;> simp only [searchStep, h] <;> split <;> rfl

lemma searchStep_best_lt (enc : ℤ → List ℕ) (t : ℤ) (s : SearchState) (d : ℤ)
    (hd : s.bestDiff = some d)
    (hlt : |((enc (stepQuality s)).length : ℤ) - t| < d) :
    (searchStep enc t s).bestBuffer = some (enc (stepQuality s)) ∧
    (searchStep enc t s).bestDiff = some (|((enc (stepQuality s)).length : ℤ) - t|) := by
  refine ⟨?_, ?_⟩ <;> simp only [searchStep, hd, decide_eq_true hlt] <;> split <;> rfl

lemma searchStep_best_ge (enc : ℤ → List ℕ) (t : ℤ) (s : SearchState) (d : ℤ)
    (hd : s.bestDiff = some d)
    (hge : ¬ |((enc (stepQuality s)).length : ℤ) - t| < d) :
    (searchStep enc t s).bestBuffer = s.bestBuffer ∧
    (searchStep enc t s).bestDiff = s.bestDiff := by
  refine ⟨?_, ?_⟩ <;> simp only [searchStep, hd, decide_eq_false hge] <;>
    split <;> simp [hd]

/-! ### The best-candidate tracking invariant -/

lemma searchStates_best_spec (enc : ℤ → List ℕ) (t bq : ℤ) :
    ∀ n : ℕ, ∃ i : ℕ, i ≤ n ∧
      (searchStates enc t bq (n + 1)).bestBuffer = some (probeBuffer enc t bq i) ∧
      (searchStates enc t bq (n + 1)).bestDiff = some (probeDiff enc t bq i) ∧
      (∀ j, j < i → probeDiff enc t bq i < probeDiff enc t bq j) ∧
      (∀ j, j ≤ n → probeDiff enc t bq i ≤ probeDiff enc t bq j) := by
  intro n
  induction n with
  | zero =>
      obtain ⟨hb, hd⟩ := searchStep_best_none enc t (searchInit bq) rfl
      exact ⟨0, le_refl 0, hb, hd, fun j hj => absurd hj (Nat.not_lt_zero j),
        fun j hj => le_of_eq (by rw [Nat.le_zero.mp hj])⟩
  | succ m ih =>
      obtain ⟨i, hi, hbuf, hdiff, hstrict, hmin⟩ := ih
      by_cases hlt : probeDiff enc t bq (m + 1) < probeDiff enc t bq i
      · obtain ⟨hb, hd⟩ :=
          searchStep_best_lt enc t (searchStates enc t bq (m + 1)) _ hdiff hlt
        refine ⟨m + 1, le_refl _, hb, hd, ?_, ?_⟩
        · intro j hj
          exact lt_of_lt_of_le hlt (hmin j (by omega))
        · intro j hj
          rcases Nat.lt_or_ge j (m + 1) with hj2 | hj2
          · exact le_of_lt (lt_of_lt_of_le hlt (hmin j (by omega)))
          · have : j = m + 1 := by omega
            rw [this]
      · obtain ⟨hb, hd⟩ :=
          searchStep_best_ge enc t (searchStates enc t bq (m + 1)) _ hdiff hlt
        refine ⟨i, by omega, ?_, ?_, hstrict, ?_⟩
        · rw [show searchStates enc t bq (m + 1 + 1) =
              searchStep enc t (searchStates enc t bq (m + 1)) from rfl, hb]
          exact hbuf
        · rw [show searchStates enc t bq (m + 1 + 1) =
              searchStep enc t (searchStates enc t bq (m + 1)) from rfl, hd]
          exact hdiff
        · intro j hj
          rcases Nat.lt_or_ge j (m + 1) with hj2 | hj2
          · exact hmin j (by omega)
          · have : j = m + 1 := by omega
            rw [this]
            exact le_of_not_lt hlt

lemma bestBuffer_final (enc : ℤ → List ℕ) (t bq : ℤ) : ∃ i, i ≤ 7 ∧
    (searchStates enc t bq 8).bestBuffer = some (probeBuffer enc t bq i) ∧
    (∀ j, j < i → probeDiff enc t bq i < probeDiff enc t bq j) ∧
    (∀ j, j ≤ 7 → probeDiff enc t bq i ≤ probeDiff enc t bq j) := by
  obtain ⟨i, hi, hb, _, hs, hm⟩ := searchStates_best_spec enc t bq 7
  exact ⟨i, hi, hb, hs, hm⟩

lemma encodeToTargetSize_eq_best (enc : ℤ → List ℕ) (t bq : ℤ) {b : List ℕ}
    (hb : (searchStates enc t bq 8).bestBuffer = some b) :
    encodeToTargetSize enc t bq = b := by
  unfold encodeToTargetSize
  rw [hb]

lemma encodeCallCount_eq_eight (enc : ℤ → List ℕ) (t bq : ℤ) :
    encodeCallCount enc t bq = 8 := by
  obtain ⟨i, _, hb, _, _⟩ := bestBuffer_final enc t bq
  unfold encodeCallCount
  rw [hb]
  rfl

/-! ### The bound invariant of the search -/

lemma stepQuality_ge (s : SearchState) (h1 : 30 ≤ s.low) (h2 : 27 ≤ s.high) :
    29 ≤ stepQuality s := by
  unfold stepQuality jsRound2
  omega

lemma stepQuality_le (s : SearchState) (h : s.low ≤ s.high + 4) :
    stepQuality s ≤ s.high + 2 := by
  unfold stepQuality jsRound2
  omega

lemma stepQuality_lower (s : SearchState) (h : s.low ≤ s.high + 4) :
    s.low - 2 ≤ stepQuality s := by
  unfold stepQuality jsRound2
  omega

lemma searchInv_init (bq : ℤ) : searchInv bq (searchInit bq) := by
  have h40 : (40 : ℤ) ≤ max bq 40 := le_max_right _ _
  exact ⟨le_refl _, by show (27 : ℤ) ≤ max bq 40; omega,
    le_refl _, by show (30 : ℤ) ≤ max bq 40 + 4; omega⟩

lemma searchInv_step (enc : ℤ → List ℕ) (t bq : ℤ) (s : SearchState)
    (h : searchInv bq s) : searchInv bq (searchStep enc t s) := by
  obtain ⟨h1, h2, h3, h4⟩ := h
  have hq1 : 29 ≤ stepQuality s := stepQuality_ge s h1 h2
  have hq2 : stepQuality s ≤ s.high + 2 := stepQuality_le s h4
  have hq3 : s.low - 2 ≤ stepQuality s := stepQuality_lower s h4
  by_cases hgt : t < ((enc (stepQuality s)).length : ℤ)
  · obtain ⟨hl, hh⟩ := searchStep_low_high_gt enc t s hgt
    exact ⟨by rw [hl]; exact h1, by rw [hh]; omega, by rw [hh]; omega,
      by rw [hl, hh]; omega⟩
  · obtain ⟨hl, hh⟩ := searchStep_low_high_le enc t s hgt
    exact ⟨by rw [hl]; omega, by rw [hh]; exact h2, by rw [hh]; exact h3,
      by rw [hl, hh]; omega⟩

lemma searchInv_states (enc : ℤ → List ℕ) (t bq : ℤ) :
    ∀ n, searchInv bq (searchStates enc t bq n)
  | 0 => searchInv_init bq
  | n + 1 => searchInv_step enc t bq _ (searchInv_states enc t bq n)

/-! ### Claim theorems about the target-size search -/

/-- C1: for every request with `targetBytes > 0`, the target-size search
initializes `low = 30` and `high = max(baseQuality, 40)`; it makes exactly
8 encode calls with no early exit; each iteration encodes at
`quality = round((low + high) / 2)`; and after each iteration it sets
`high = quality - 2` when the encoded length exceeds `targetBytes` and
`low = quality + 2` otherwise. -/
theorem spec_C1 (enc : ℤ → List ℕ) (t bq : ℤ) (ht : 0 < t) :
    (searchStates enc t bq 0).low = 30 ∧
    (searchStates enc t bq 0).high = max bq 40 ∧
    encodeCallCount enc t bq = 8 ∧
    (∀ i : ℕ, probeQuality enc t bq i =
        jsRound2 ((searchStates enc t bq i).low + (searchStates enc t bq i).high)) ∧
    (∀ i : ℕ, t < ((probeBuffer enc t bq i).length : ℤ) →
        (searchStates enc t bq (i + 1)).low = (searchStates enc t bq i).low ∧
        (searchStates enc t bq (i + 1)).high = probeQuality enc t bq i - 2) ∧
    (∀ i : ℕ, ¬ t < ((probeBuffer enc t bq i).length : ℤ) →
        (searchStates enc t bq (i + 1)).low = probeQuality enc t bq i + 2 ∧
        (searchStates enc t bq (i + 1)).high = (searchStates enc t bq i).high) :=
  ⟨rfl, rfl, encodeCallCount_eq_eight enc t bq, fun _ => rfl,
    fun i hi => searchStep_low_high_gt enc t (searchStates enc t bq i) hi,
    fun i hi => searchStep_low_high_le enc t (searchStates enc t bq i) hi⟩

/-- Witness for C1 at a concrete encoder, target and base quality. -/
theorem spec_C1_witness :
    (0 : ℤ) < 1 ∧ (searchStates (fun _ => [0, 0]) 1 75 0).low = 30 :=
  ⟨by decide, (spec_C1 (fun _ => [0, 0]) 1 75 (by decide)).1⟩

/-- C2: for every request with `targetBytes > 0`, at most 8 encode calls
occur; the returned buffer's distance to the target is no larger than the
diff of any search iteration; and the returned buffer is the one from the
earliest iteration attaining the minimal diff (a later equal diff never
replaces the recorded best, since the best is updated only under strict
`<`). -/
theorem spec_C2 (enc : ℤ → List ℕ) (t bq : ℤ) (ht : 0 < t) :
    encodeCallCount enc t bq ≤ 8 ∧
    (∀ j, j ≤ 7 →
      |((encodeToTargetSize enc t bq).length : ℤ) - t| ≤ probeDiff enc t bq j) ∧
    (∃ i, i ≤ 7 ∧ encodeToTargetSize enc t bq = probeBuffer enc t bq i ∧
      (∀ j, j < i → probeDiff enc t bq i < probeDiff enc t bq j) ∧
      (∀ j, j ≤ 7 → probeDiff enc t bq i ≤ probeDiff enc t bq j)) := by
  obtain ⟨i, hi, hb, hs, hm⟩ := bestBuffer_final enc t bq
  have hres : encodeToTargetSize enc t bq = probeBuffer enc t bq i :=
    encodeToTargetSize_eq_best enc t bq hb
  refine ⟨le_of_eq (encodeCallCount_eq_eight enc t bq), ?_, i, hi, hres, hs, hm⟩
  intro j hj
  rw [hres]
  exact hm j hj

/-- Witness for C2 at a concrete encoder, target and base quality. -/
theorem spec_C2_witness :
    (0 : ℤ) < 1 ∧ encodeCallCount (fun _ => [0, 0]) 1 75 ≤ 8 :=
  ⟨by decide, (spec_C2 (fun _ => [0, 0]) 1 75 (by decide)).1⟩

/-- C3: for every request with `targetBytes > 0` (each single-pass encode
assumed to succeed, as the encoder oracle is total), the search always
returns a recorded buffer: the best candidate is recorded already on the
first iteration, the final state carries a recorded best that is returned,
and the defensive fallback re-encode at `baseQuality` is never taken, so
exactly the 8 loop encode calls happen. -/
theorem spec_C3 (enc : ℤ → List ℕ) (t bq : ℤ) (ht : 0 < t) :
    (searchStates enc t bq 1).bestBuffer = some (probeBuffer enc t bq 0) ∧
    (∃ b, (searchStates enc t bq 8).bestBuffer = some b ∧
      encodeToTargetSize enc t bq = b) ∧
    encodeCallCount enc t bq = 8 := by
  obtain ⟨i, _, hb, _, _⟩ := bestBuffer_final enc t bq
  exact ⟨(searchStep_best_none enc t (searchInit bq) rfl).1,
    ⟨probeBuffer enc t bq i, hb, encodeToTargetSize_eq_best enc t bq hb⟩,
    encodeCallCount_eq_eight enc t bq⟩

/-- Witness for C3 at a concrete encoder, target and base quality. -/
theorem spec_C3_witness :
    (0 : ℤ) < 1 ∧ encodeCallCount (fun _ => [0, 0]) 1 75 = 8 :=
  ⟨by decide, (spec_C3 (fun _ => [0, 0]) 1 75 (by decide)).2.2⟩

/-- C4 as stated is false: with `baseQuality = 40`, `targetBytes = 1` and an
encoder that always produces 2 bytes (so every iteration overshoots), the
fourth probed quality is 29, outside the claimed range 30-95. -/
theorem spec_C4_counterexample :
    ¬ (∀ i, i < 8 → 30 ≤ probeQuality (fun _ => [0, 0]) 1 40 i ∧
        probeQuality (fun _ => [0, 0]) 1 40 i ≤ 95) := by
  decide

/-- C4 amended: every quality probed during the target-size search lies
between 29 and `max(baseQuality, 40) + 2` inclusive (the code has no clamp
to 30-95: the probed midpoint can undershoot `low = 30` by one once `high`
has collapsed below `low`, and can overshoot `high`'s initial value by two
once `low` has climbed past it). -/
theorem spec_C4_amended (enc : ℤ → List ℕ) (t bq : ℤ) (i : ℕ) :
    29 ≤ probeQuality enc t bq i ∧ probeQuality enc t bq i ≤ max bq 40 + 2 := by
  have h := searchInv_states enc t bq i
  unfold searchInv at h
  obtain ⟨h1, h2, h3, h4⟩ := h
  exact ⟨stepQuality_ge _ h1 h2, le_trans (stepQuality_le _ h4) (by omega)⟩

/-! ### Claim theorems about the batch handler and the normalizer -/

/-- C5 as stated is false: with two files where only the first fails, the
whole batch result is the first file's error even though the sibling file
converts successfully on its own, so no sibling results are produced. -/
theorem spec_C5_counterexample :
    (fun n => if n = 1 then (Except.error "boom" : Except String ℕ)
              else Except.ok (n * 10)) 2 = Except.ok 20 ∧
    convertBatch
      (fun n => if n = 1 then (Except.error "boom" : Except String ℕ)
                else Except.ok (n * 10)) [1, 2] = Except.error "boom" :=
  ⟨rfl, rfl⟩

/-- C5 amended: when the codec raises an unrecoverable failure for one file
of a batch, the single `try/catch` around the jointly-awaited jobs turns it
into a terminal failure for the whole batch request: the handler returns one
error response and no sibling results are returned to the caller. -/
theorem spec_C5_amended {F E O : Type} (convert : F → Except E O)
    (files : List F) (f : F) (e : E) (hf : f ∈ files)
    (he : convert f = Except.error e) :
    (∃ e2, convertBatch convert files = Except.error e2) ∧
    ∀ os, convertBatch convert files ≠ Except.ok os := by
  have key : ∃ e2, convertBatch convert files = Except.error e2 := by
    induction files with
    | nil => exact absurd hf (List.not_mem_nil f)
    | cons g rest ih =>
        rcases List.mem_cons.mp hf with hg | hrest
        · rw [hg] at he
          exact ⟨e, by unfold convertBatch; rw [he]⟩
        · cases hcg : convert g with
          | error e3 => exact ⟨e3, by unfold convertBatch; rw [hcg]⟩
          | ok o =>
              obtain ⟨e2, h2⟩ := ih hrest
              exact ⟨e2, by unfold convertBatch; rw [hcg, h2]⟩
  obtain ⟨e2, h2⟩ := key
  exact ⟨⟨e2, h2⟩, fun os hos => by rw [h2] at hos; exact Except.noConfusion hos⟩

/-- Witness for C5 amended on a concrete failing batch. -/
theorem spec_C5_witness :
    (1 : ℕ) ∈ [1, 2] ∧
    (∃ e2, convertBatch
      (fun n => if n = 1 then (Except.error "boom" : Except String ℕ)
                else Except.ok (n * 10)) [1, 2] = Except.error e2) :=
  ⟨by decide,
    (spec_C5_amended
      (fun n => if n = 1 then (Except.error "boom" : Except String ℕ)
                else Except.ok (n * 10)) [1, 2] 1 "boom" (by decide) rfl).1⟩

/-- C6: `toBoolean` is true exactly for the string `"true"`, the string
`"1"`, the number `1` and the boolean `true`, and false for every other
input (null, undefined, `"false"`, `"0"`, `0`, `false`, files and other
objects included). -/
theorem spec_C6 (v : FormValue) :
    toBoolean v = true ↔
      (v = .str "true" ∨ v = .str "1" ∨ v = .num 1 ∨ v = .bool true) := by
  cases v <;> simp [toBoolean]

/-- C7: format resolution never yields `auto` or `jpg`; a non-`auto` request
resolves to itself with `jpg` mapped to `jpeg`; and under `auto` the seven
known extensions map through the table while every other extension
(the empty string included) falls back to `jpeg`. -/
theorem spec_C7 (f : OutputFormat) (ext : String) :
    normalizeFormat f ext ≠ .auto ∧
    normalizeFormat f ext ≠ .jpg ∧
    (f ≠ .auto → f ≠ .jpg → normalizeFormat f ext = f) ∧
    normalizeFormat .jpg ext = .jpeg ∧
    normalizeFormat .auto "jpeg" = .jpeg ∧
    normalizeFormat .auto "jpg" = .jpeg ∧
    normalizeFormat .auto "png" = .png ∧
    normalizeFormat .auto "webp" = .webp ∧
    normalizeFormat .auto "avif" = .avif ∧
    normalizeFormat .auto "tiff" = .tiff ∧
    normalizeFormat .auto "gif" = .gif ∧
    (ext ∉ ["jpeg", "jpg", "png", "webp", "avif", "tiff", "gif"] →
      normalizeFormat .auto ext = .jpeg) := by
  refine ⟨?_, ?_, ?_, rfl, by decide, by decide, by decide, by decide,
    by decide, by decide, by decide, ?_⟩
  · cases f <;> simp [normalizeFormat] <;> split_ifs <;> simp
  · cases f <;> simp [normalizeFormat] <;> split_ifs <;> simp
  · intro h1 h2
    cases f <;> simp_all [normalizeFormat]
  · intro h
    simp only [normalizeFormat]
    split_ifs with h1 h2 h3 h4 h5 h6 h7 <;> simp_all

/-- Witness for C7's conditional parts at concrete inputs. -/
theorem spec_C7_witness :
    normalizeFormat .png "bmp" = .png ∧ normalizeFormat .auto "bmp" = .jpeg := by
  refine ⟨(spec_C7 .png "bmp").2.2.1 (by decide) (by decide), ?_⟩
  exact (spec_C7 .auto "bmp").2.2.2.2.2.2.2.2.2.2.2 (by decide)

/-! ### Pipeline structure lemmas -/

lemma buildPipeline_eq (o : PipelineOptions) :
    buildPipeline o =
      Stage.rotate ::
        ((if numTruthy o.width || numTruthy o.height then [resizeStage o] else []) ++
         (if o.keepMetadata then [Stage.withMetadata] else []) ++
         (if strTruthy o.background then [Stage.flatten (o.background.getD "")]
          else [])) := by
  unfold buildPipeline resizeStage
  split_ifs <;> simp

lemma mem_buildPipeline (o : PipelineOptions) (s : Stage) :
    s ∈ buildPipeline o ↔
      (s = Stage.rotate ∨
       (s = resizeStage o ∧ (numTruthy o.width || numTruthy o.height) = true) ∨
       (s = Stage.withMetadata ∧ o.keepMetadata = true) ∨
       (s = Stage.flatten (o.background.getD "") ∧ strTruthy o.background = true)) := by
  rw [buildPipeline_eq]
  split_ifs <;> simp_all <;> tauto

lemma pipeline_pairwise (o : PipelineOptions) :
    List.Pairwise (fun a b => ¬(isFlatten a = true ∧ isResize b = true))
      (buildPipeline o) := by
  rw [buildPipeline_eq]
  split_ifs <;> simp [resizeStage, isFlatten, isResize]

/-- C8: the pipeline always starts with the unconditional orientation
auto-rotation; a resize stage is present exactly when width or height is
non-zero, carries `withoutEnlargement = true` (no upscaling) and defaults
its fit mode to `inside` when none is specified; and every resize stage
comes strictly after the rotation and strictly before any flatten stage. -/
theorem spec_C8 (o : PipelineOptions) :
    (buildPipeline o).head? = some Stage.rotate ∧
    ((∃ w h f we, Stage.resize w h f we ∈ buildPipeline o) ↔
      (numTruthy o.width || numTruthy o.height) = true) ∧
    (∀ w h f we, Stage.resize w h f we ∈ buildPipeline o →
      we = true ∧ (o.fit = none → f = Fit.inside)) ∧
    (∀ i j : ℕ, ∀ a b : Stage, (buildPipeline o).get? i = some a →
      (buildPipeline o).get? j = some b →
      isResize a = true → isFlatten b = true → i < j) ∧
    (∀ i : ℕ, ∀ a : Stage, (buildPipeline o).get? i = some a →
      isResize a = true → 0 < i) := by
  have hhead : (buildPipeline o).head? = some Stage.rotate := by
    rw [buildPipeline_eq]
    rfl
  refine ⟨hhead, ⟨?_, ?_⟩, ?_, ?_, ?_⟩
  · rintro ⟨w, h, f, we, hmem⟩
    rw [mem_buildPipeline] at hmem
    rcases hmem with h1 | ⟨h1, h2⟩ | ⟨h1, _⟩ | ⟨h1, _⟩
    · simp at h1
    · exact h2
    · simp at h1
    · simp at h1
  · exact fun hc =>
      ⟨_, _, _, _, (mem_buildPipeline o (resizeStage o)).mpr (Or.inr (Or.inl ⟨rfl, hc⟩))⟩
  · intro w h f we hmem
    rw [mem_buildPipeline] at hmem
    rcases hmem with h1 | ⟨h1, _⟩ | ⟨h1, _⟩ | ⟨h1, _⟩
    · simp at h1
    · simp only [resizeStage, Stage.resize.injEq] at h1
      obtain ⟨_, _, hf, hwe⟩ := h1
      refine ⟨hwe, fun hnone => ?_⟩
      rw [hf, hnone]
      rfl
    · simp at h1
    · simp at h1
  · intro i j a b hi hj hra hfb
    obtain ⟨hi2, hgi⟩ := List.get?_eq_some.mp hi
    obtain ⟨hj2, hgj⟩ := List.get?_eq_some.mp hj
    by_contra hij
    have hp := (List.pairwise_iff_get).mp (pipeline_pairwise o)
    rcases Nat.lt_or_ge j i with hlt | hge
    · exact hp ⟨j, hj2⟩ ⟨i, hi2⟩ hlt ⟨by rw [hgj]; exact hfb, by rw [hgi]; exact hra⟩
    · have hji : i = j := by omega
      have hfin : (⟨i, hi2⟩ : Fin (buildPipeline o).length) = ⟨j, hj2⟩ :=
        Fin.ext hji
      have hab : a = b := by rw [← hgi, ← hgj, hfin]
      rw [hab] at hra
      cases b <;> simp_all [isResize, isFlatten]
  · intro i a hi hra
    rcases Nat.eq_zero_or_pos i with h0 | hpos
    · rw [h0] at hi
      rw [List.get?_zero, hhead] at hi
      rw [(Option.some_inj).mp hi.symm] at hra
      simp [isResize] at hra
    · exact hpos

/-- Witness for C8 at a concrete options record with a resize and flatten. -/
theorem spec_C8_witness :
    (numTruthy (some 100) || numTruthy (none : Option ℤ)) = true ∧
    (∃ w h f we, Stage.resize w h f we ∈
      buildPipeline ⟨some 100, none, none, false, some "#ffffff"⟩) :=
  ⟨by decide,
    ((spec_C8 ⟨some 100, none, none, false, some "#ffffff"⟩).2.1).mpr (by decide)⟩

/-- C9: a flatten stage is present in the pipeline built by the request
handler exactly when the flatten flag is set and the resolved output format
lies outside the fixed alpha-capable set `{png, webp, avif, gif}`; for
formats in that set no flatten stage is ever added, whatever the flag and
background color. -/
theorem spec_C9 (w h : ℤ) (fit : Fit) (km fl : Bool) (rawBg : Option String)
    (fmt : OutputFormat) :
    (∃ bg, Stage.flatten bg ∈
        buildPipeline (postEncoderOptions w h fit km fl rawBg fmt)) ↔
      (fl = true ∧ fmt ∉ hasAlphaFormats) := by
  have hbgne : postBackground rawBg ≠ "" := by
    cases rawBg with
    | none => decide
    | some s =>
        by_cases hs : s = "" <;> simp [postBackground, hs]
  have hsf : shouldFlatten fl fmt = true ↔ (fl = true ∧ fmt ∉ hasAlphaFormats) := by
    cases fl <;> cases fmt <;> decide
  constructor
  · rintro ⟨bg, hmem⟩
    rw [mem_buildPipeline] at hmem
    rcases hmem with h1 | ⟨h1, _⟩ | ⟨h1, _⟩ | ⟨_, h2⟩
    · simp at h1
    · simp [resizeStage] at h1
    · simp at h1
    · cases hc : shouldFlatten fl fmt with
      | false => simp [postEncoderOptions, hc, strTruthy] at h2
      | true => exact hsf.mp hc
  · rintro ⟨hfl, hmem⟩
    have hsf2 : shouldFlatten fl fmt = true := hsf.mpr ⟨hfl, hmem⟩
    refine ⟨postBackground rawBg, (mem_buildPipeline _ _).mpr (Or.inr (Or.inr (Or.inr ⟨?_, ?_⟩)))⟩
    · simp [postEncoderOptions, hsf2]
    · simp [postEncoderOptions, hsf2, strTruthy, hbgne]

/-! ### List lemmas for the filename regex -/

lemma takeWhile_append_of_all {p : Char → Bool} {l1 l2 : List Char}
    (h : ∀ c ∈ l1, p c = true) :
    (l1 ++ l2).takeWhile p = l1 ++ l2.takeWhile p := by
  induction l1 with
  | nil => simp
  | cons c cs ih =>
      have hc : p c = true := h c (List.mem_cons_self c cs)
      simp [List.takeWhile_cons, hc,
        ih (fun x hx => h x (List.mem_cons_of_mem c hx))]

lemma dropWhile_append_of_all {p : Char → Bool} {l1 l2 : List Char}
    (h : ∀ c ∈ l1, p c = true) :
    (l1 ++ l2).dropWhile p = l2.dropWhile p := by
  induction l1 with
  | nil => simp
  | cons c cs ih =>
      have hc : p c = true := h c (List.mem_cons_self c cs)
      simp [List.dropWhile_cons, hc,
        ih (fun x hx => h x (List.mem_cons_of_mem c hx))]

lemma dropWhile_head_not {p : Char → Bool} (l : List Char) :
    l.dropWhile p = [] ∨
    ∃ c rest, l.dropWhile p = c :: rest ∧ p c = false ∧ c ∈ l := by
  induction l with
  | nil => exact Or.inl rfl
  | cons c cs ih =>
      cases hc : p c with
      | true =>
          rcases ih with h | ⟨d, rest, hd, hpd, hdm⟩
          · left
            simp [List.dropWhile_cons, hc, h]
          · right
            exact ⟨d, rest, by simp [List.dropWhile_cons, hc, hd], hpd,
              List.mem_cons_of_mem c hdm⟩
      | false =>
          right
          exact ⟨c, cs, by simp [List.dropWhile_cons, hc], hc,
            List.mem_cons_self c cs⟩

lemma dropWhile_stop {p : Char → Bool} (l : List Char) (x : Char)
    (hx : x ∈ l) (hpx : p x = false) :
    ∃ c rest, l.dropWhile p = c :: rest ∧ p c = false ∧ c ∈ l := by
  induction l with
  | nil => exact absurd hx (List.not_mem_nil x)
  | cons d ds ih =>
      cases hd : p d with
      | false =>
          exact ⟨d, ds, by simp [List.dropWhile_cons, hd], hd,
            List.mem_cons_self d ds⟩
      | true =>
          have hx2 : x ∈ ds := by
            rcases List.mem_cons.mp hx with h1 | h1
            · rw [h1] at hpx
              simp [hpx] at hd
            · exact h1
          obtain ⟨c, rest, h1, h2, h3⟩ := ih hx2
          exact ⟨c, rest, by simp [List.dropWhile_cons, hd, h1], h2,
            List.mem_cons_of_mem d h3⟩

lemma dropWhile_append_stop {p : Char → Bool} {l1 : List Char} (l2 : List Char)
    {c : Char} {rest : List Char} (h : l1.dropWhile p = c :: rest) :
    (l1 ++ l2).dropWhile p = c :: (rest ++ l2) := by
  induction l1 with
  | nil => simp at h
  | cons d ds ih =>
      cases hd : p d with
      | true =>
          rw [List.dropWhile_cons, if_pos (by simp [hd])] at h
          simp [List.dropWhile_cons, hd, ih h]
      | false =>
          rw [List.dropWhile_cons, if_neg (by simp [hd])] at h
          injection h with h1 h2
          subst h1
          subst h2
          simp [List.dropWhile_cons, hd]

/-! ### Behaviour of the filename regex on the shapes of names -/

lemma reverse_append_dot (pre suf : List Char) :
    (pre ++ '.' :: suf).reverse = suf.reverse ++ '.' :: pre.reverse := by
  simp

lemma stripJsExt_strip (pre suf : List Char) (hne : suf ≠ [])
    (hdot : '.' ∉ suf) (hslash : '/' ∉ suf) :
    stripJsExt (String.mk (pre ++ '.' :: suf)) = String.mk pre := by
  have hall : ∀ c ∈ suf.reverse, extChar c = true := by
    intro c hc
    have hc2 : c ∈ suf := List.mem_reverse.mp hc
    have h1 : c ≠ '.' := fun h => hdot (h ▸ hc2)
    have h2 : c ≠ '/' := fun h => hslash (h ▸ hc2)
    simp [extChar, h1, h2]
  simp only [stripJsExt]
  rw [reverse_append_dot pre suf, takeWhile_append_of_all hall,
    dropWhile_append_of_all hall,
    show List.takeWhile extChar ('.' :: pre.reverse) = [] from by
      simp [List.takeWhile_cons, extChar],
    show List.dropWhile extChar ('.' :: pre.reverse) = '.' :: pre.reverse from by
      simp [List.dropWhile_cons, extChar]]
  have hie : (suf.reverse ++ ([] : List Char)).isEmpty = false := by
    rw [List.append_nil]
    cases hsr : suf.reverse with
    | nil => exact absurd (by simpa using congrArg List.reverse hsr) hne
    | cons a l => rfl
  rw [hie]
  simp

lemma stripJsExt_keep_nodot (pre : List Char) (h : '.' ∉ pre) :
    stripJsExt (String.mk pre) = String.mk pre := by
  simp only [stripJsExt]
  rcases dropWhile_head_not (p := extChar) pre.reverse with hnil | ⟨c, rest, hd, hpc, hcm⟩
  · rw [hnil]
    simp
  · have hc2 : c ∈ pre := List.mem_reverse.mp hcm
    have hcd : c ≠ '.' := fun he => h (he ▸ hc2)
    rw [hd]
    split
    · rfl
    · simp [hcd]

lemma stripJsExt_keep_empty_ext (pre : List Char) :
    stripJsExt (String.mk (pre ++ ['.'])) = String.mk (pre ++ ['.']) := by
  simp only [stripJsExt]
  rw [show (pre ++ ['.']).reverse = '.' :: pre.reverse from by simp]
  simp [List.takeWhile_cons, extChar]

lemma stripJsExt_keep_slash (pre suf : List Char) (hdot : '.' ∉ suf)
    (hsl : '/' ∈ suf) :
    stripJsExt (String.mk (pre ++ '.' :: suf)) = String.mk (pre ++ '.' :: suf) := by
  simp only [stripJsExt]
  obtain ⟨c, rest, hd, hpc, hcm⟩ :=
    dropWhile_stop (p := extChar) suf.reverse '/' (List.mem_reverse.mpr hsl)
      (by simp [extChar])
  have hcd : c ≠ '.' := fun he => hdot (he ▸ List.mem_reverse.mp hcm)
  rw [reverse_append_dot pre suf, dropWhile_append_stop ('.' :: pre.reverse) hd]
  split
  · rfl
  · simp [hcd]

/-! ### Claim theorems about the output filename -/

/-- C10 as stated is false: for the input name `"file."` the code's regex
`\.[^\x2f.]+$` does not match (there is no character after the final dot),
so the whole name is kept as the base and the output is `"file..jpg"`,
while the claim's reading (drop everything from the final dot) predicts
`"file.jpg"`. -/
theorem spec_C10_counterexample :
    outputName .jpeg "file." = "file..jpg" ∧
    claimOutputName .jpeg "file." = "file.jpg" ∧
    outputName .jpeg "file." ≠ claimOutputName .jpeg "file." :=
  ⟨by decide, by decide, by decide⟩

/-- C10 amended: the output filename is the input base name, a dot, and the
resolved format's name (`jpeg` written as `jpg`); the base name drops a
final dot-extension only when the part after the final dot is nonempty and
contains no slash (and, being after the final dot, no dot); otherwise —
no dot at all, a trailing dot, or a slash after the final dot — the whole
input name is kept as the base. -/
theorem spec_C10_amended (fmt : OutputFormat) (pre suf : List Char) :
    extensionFor .jpeg = "jpg" ∧
    (suf ≠ [] → '.' ∉ suf → '/' ∉ suf →
      outputName fmt (String.mk (pre ++ '.' :: suf)) =
        String.mk pre ++ "." ++ extensionFor fmt) ∧
    ('.' ∉ pre →
      outputName fmt (String.mk pre) = String.mk pre ++ "." ++ extensionFor fmt) ∧
    (outputName fmt (String.mk (pre ++ ['.'])) =
      String.mk (pre ++ ['.']) ++ "." ++ extensionFor fmt) ∧
    ('.' ∉ suf → '/' ∈ suf →
      outputName fmt (String.mk (pre ++ '.' :: suf)) =
        String.mk (pre ++ '.' :: suf) ++ "." ++ extensionFor fmt) := by
  refine ⟨rfl, ?_, ?_, ?_, ?_⟩
  · intro h1 h2 h3
    unfold outputName
    rw [stripJsExt_strip pre suf h1 h2 h3]
  · intro h1
    unfold outputName
    rw [stripJsExt_keep_nodot pre h1]
  · unfold outputName
    rw [stripJsExt_keep_empty_ext pre]
  · intro h1 h2
    unfold outputName
    rw [stripJsExt_keep_slash pre suf h1 h2]

/-- Witness for C10 amended on a concrete well-formed filename. -/
theorem spec_C10_witness :
    ("png".data ≠ [] ∧ '.' ∉ "png".data ∧ '/' ∉ "png".data) ∧
    outputName .jpeg (String.mk ("photo".data ++ '.' :: "png".data)) =
      String.mk "photo".data ++ "." ++ extensionFor .jpeg :=
  ⟨by decide,
    (spec_C10_amended .jpeg "photo".data "png".data).2.1
      (by decide) (by decide) (by decide)⟩

end OptiPic
